import Mathlib

/-!
Verification of the p-m2m many-to-many container library.

The library stores a many-to-many association as a sequence of pairs.
Three source files provide three variants:

* src/src/stdvec.rs  : M2M over Vec, sorted-order policy (sort on insert,
  sort + dedup on bulk construction), with the full query surface.
* src/src/smallvec.rs: SmallM2M over SmallVec, sorted-order policy, with
  the reduced surface (new, from, insert, len, is_empty, clear, contains,
  remove, iter, as_slice).
* src/src/lib.rs     : an M2M variant with insertion-order policy on
  insert (no re-sort after push) and sort + dedup on bulk construction.

Each Rust method is embedded as a pure Lean function on a list of pairs;
mutation becomes explicit state passing (a method returning `T` on
`&mut self` becomes a function returning `T × M2M L R`).  The inline
capacity of SmallVec is an allocation detail with no observable effect on
the sequence of pairs, so SmallM2M is embedded with the same carrier.
-/

/-- Lexicographic comparison on pairs, `a <= b` in the order Rust derives
for tuples (`(L, R): Ord`): compare first components, break ties on the
second.  This is the comparison used by `v.sort()` in all three files. -/
def pairLE {L R : Type} [LinearOrder L] [LinearOrder R] (a b : L × R) : Bool :=
  decide (a.1 < b.1) || (decide (a.1 = b.1) && decide (a.2 ≤ b.2))

/-- Strict lexicographic order on pairs, the `a < b` of the derived tuple
order. -/
def pairLT {L R : Type} [LinearOrder L] [LinearOrder R] (a b : L × R) : Prop :=
  a.1 < b.1 ∨ (a.1 = b.1 ∧ a.2 < b.2)

instance {L R : Type} [LinearOrder L] [LinearOrder R] (a b : L × R) :
    Decidable (pairLT a b) := by
  unfold pairLT
  infer_instance

/-- Adjacent deduplication: removes consecutive repeated elements,
keeping one representative of each run, exactly what `Vec::dedup` does. -/
def dedupAdj {α : Type} [DecidableEq α] : List α → List α
  | [] => []
  | [a] => [a]
  | a :: b :: rest => if a = b then dedupAdj (b :: rest) else a :: dedupAdj (b :: rest)

/-- One step model of the index-based removal loop shared verbatim by the
`remove` methods of src/src/stdvec.rs, src/src/smallvec.rs and
src/src/lib.rs: scan the pairs left to right, extracting the right
component of every pair whose left component equals `left` (in encounter
order) and keeping the other pairs in their relative order. -/
def removeAux {L R : Type} [DecidableEq L] (left : L) :
    List (L × R) → List R × List (L × R)
  | [] => ([], [])
  | p :: rest =>
    let res := removeAux left rest
    if p.1 = left then (p.2 :: res.1, res.2) else (res.1, p :: res.2)

namespace Stdvec

/-- The M2M container of src/src/stdvec.rs: a wrapper around a vector of
pairs. -/
structure M2M (L R : Type) where
  pairs : List (L × R)

/-- M2M::new / Default: the empty container. -/
def M2M.new {L R : Type} : M2M L R :=
  ⟨[]⟩

/-- FromIterator for M2M (src/src/stdvec.rs lines 34-41): collect, sort,
dedup adjacent duplicates. -/
def M2M.from_iter {L R : Type} [LinearOrder L] [LinearOrder R]
    (v : List (L × R)) : M2M L R :=
  ⟨dedupAdj (List.mergeSort v pairLE)⟩

/-- M2M::insert (src/src/stdvec.rs lines 182-196): if the pair is present
return false, else push it, re-sort, and return true. -/
def M2M.insert {L R : Type} [LinearOrder L] [LinearOrder R]
    (m : M2M L R) (left : L) (right : R) : Bool × M2M L R :=
  let value := (left, right)
  if value ∈ m.pairs then (false, m)
  else (true, ⟨List.mergeSort (m.pairs ++ [value]) pairLE⟩)

/-- M2M::len. -/
def M2M.len {L R : Type} (m : M2M L R) : Nat :=
  m.pairs.length

/-- M2M::is_empty. -/
def M2M.is_empty {L R : Type} (m : M2M L R) : Bool :=
  m.pairs.isEmpty

/-- M2M::clear. -/
def M2M.clear {L R : Type} (_ : M2M L R) : M2M L R :=
  ⟨[]⟩

/-- M2M::remove (src/src/stdvec.rs lines 264-285): delete every pair whose
left component equals the argument, returning their right components, or
None when none matched. -/
def M2M.remove {L R : Type} [DecidableEq L] (m : M2M L R) (left : L) :
    Option (List R) × M2M L R :=
  let res := removeAux left m.pairs
  (if res.1.isEmpty then none else some res.1, ⟨res.2⟩)

/-- M2M::contains. -/
def M2M.contains {L R : Type} [DecidableEq L] [DecidableEq R]
    (m : M2M L R) (left : L) (right : R) : Bool :=
  m.pairs.any (fun p => decide (p.1 = left) && decide (p.2 = right))

/-- M2M::iter, as the sequence of pairs the iterator yields. -/
def M2M.iter {L R : Type} (m : M2M L R) : List (L × R) :=
  m.pairs

/-- M2M::as_slice, as the sequence of pairs of the slice. -/
def M2M.as_slice {L R : Type} (m : M2M L R) : List (L × R) :=
  m.pairs

/-- M2M::retain (src/src/stdvec.rs lines 410-415): keep exactly the pairs
satisfying the predicate, in order. -/
def M2M.retain {L R : Type} (m : M2M L R) (f : L × R → Bool) : M2M L R :=
  ⟨m.pairs.filter f⟩

/-- M2M::reject (src/src/stdvec.rs lines 434-439): drop exactly the pairs
satisfying the predicate, in order. -/
def M2M.reject {L R : Type} (m : M2M L R) (f : L × R → Bool) : M2M L R :=
  ⟨m.pairs.filter (fun p => !f p)⟩

/-- M2M::get_rights (src/src/stdvec.rs lines 455-471): the right
components of the pairs whose left matches, in container order, None when
there are none. -/
def M2M.get_rights {L R : Type} [DecidableEq L] (m : M2M L R) (left : L) :
    Option (List R) :=
  let rights := (m.pairs.filter (fun p => decide (p.1 = left))).map Prod.snd
  if rights.isEmpty then none else some rights

/-- M2M::get_lefts (src/src/stdvec.rs lines 485-501). -/
def M2M.get_lefts {L R : Type} [DecidableEq R] (m : M2M L R) (right : R) :
    Option (List L) :=
  let lefts := (m.pairs.filter (fun p => decide (p.2 = right))).map Prod.fst
  if lefts.isEmpty then none else some lefts

/-- M2M::contains_left (src/src/stdvec.rs lines 579-584). -/
def M2M.contains_left {L R : Type} [DecidableEq L] (m : M2M L R) (left : L) :
    Bool :=
  m.pairs.any (fun p => decide (p.1 = left))

/-- M2M::contains_right (src/src/stdvec.rs lines 598-603). -/
def M2M.contains_right {L R : Type} [DecidableEq R] (m : M2M L R) (right : R) :
    Bool :=
  m.pairs.any (fun p => decide (p.2 = right))

/-- M2M::lefts (src/src/stdvec.rs lines 617-631): all left values, sorted
and deduplicated, None on an empty container. -/
def M2M.lefts {L R : Type} [LinearOrder L] (m : M2M L R) : Option (List L) :=
  let v := m.pairs.map Prod.fst
  if v.isEmpty then none
  else some (dedupAdj (List.mergeSort v (fun a b => decide (a ≤ b))))

/-- M2M::rights (src/src/stdvec.rs lines 645-659). -/
def M2M.rights {L R : Type} [LinearOrder R] (m : M2M L R) : Option (List R) :=
  let v := m.pairs.map Prod.snd
  if v.isEmpty then none
  else some (dedupAdj (List.mergeSort v (fun a b => decide (a ≤ b))))

/-- M2M::into_lefts (src/src/stdvec.rs lines 674-688): owned variant of
lefts; same computation on the embedded carrier. -/
def M2M.into_lefts {L R : Type} [LinearOrder L] (m : M2M L R) :
    Option (List L) :=
  let v := m.pairs.map Prod.fst
  if v.isEmpty then none
  else some (dedupAdj (List.mergeSort v (fun a b => decide (a ≤ b))))

/-- M2M::into_rights (src/src/stdvec.rs lines 703-717). -/
def M2M.into_rights {L R : Type} [LinearOrder R] (m : M2M L R) :
    Option (List R) :=
  let v := m.pairs.map Prod.snd
  if v.isEmpty then none
  else some (dedupAdj (List.mergeSort v (fun a b => decide (a ≤ b))))

/-- M2M::flip (src/src/stdvec.rs lines 733-743): swap the components of
every pair and sort under the reversed order.  Note the source sorts but
does not dedup here. -/
def M2M.flip {L R : Type} [LinearOrder L] [LinearOrder R] (m : M2M L R) :
    M2M R L :=
  ⟨List.mergeSort (m.pairs.map (fun p => (p.2, p.1))) pairLE⟩

end Stdvec

namespace Smallvec

/-- The SmallM2M container of src/src/smallvec.rs: a wrapper around a
small-buffer vector of pairs.  The inline capacity only affects
allocation, not the pair sequence, so the carrier is the same list. -/
structure SmallM2M (L R : Type) where
  pairs : List (L × R)

/-- SmallM2M::new / Default. -/
def SmallM2M.new {L R : Type} : SmallM2M L R :=
  ⟨[]⟩

/-- FromIterator for SmallM2M (src/src/smallvec.rs lines 34-41). -/
def SmallM2M.from_iter {L R : Type} [LinearOrder L] [LinearOrder R]
    (v : List (L × R)) : SmallM2M L R :=
  ⟨dedupAdj (List.mergeSort v pairLE)⟩

/-- SmallM2M::insert (src/src/smallvec.rs lines 188-202). -/
def SmallM2M.insert {L R : Type} [LinearOrder L] [LinearOrder R]
    (m : SmallM2M L R) (left : L) (right : R) : Bool × SmallM2M L R :=
  let value := (left, right)
  if value ∈ m.pairs then (false, m)
  else (true, ⟨List.mergeSort (m.pairs ++ [value]) pairLE⟩)

/-- SmallM2M::len. -/
def SmallM2M.len {L R : Type} (m : SmallM2M L R) : Nat :=
  m.pairs.length

/-- SmallM2M::is_empty. -/
def SmallM2M.is_empty {L R : Type} (m : SmallM2M L R) : Bool :=
  m.pairs.isEmpty

/-- SmallM2M::clear. -/
def SmallM2M.clear {L R : Type} (_ : SmallM2M L R) : SmallM2M L R :=
  ⟨[]⟩

/-- SmallM2M::remove (src/src/smallvec.rs lines 271-292). -/
def SmallM2M.remove {L R : Type} [DecidableEq L] (m : SmallM2M L R)
    (left : L) : Option (List R) × SmallM2M L R :=
  let res := removeAux left m.pairs
  (if res.1.isEmpty then none else some res.1, ⟨res.2⟩)

/-- SmallM2M::contains. -/
def SmallM2M.contains {L R : Type} [DecidableEq L] [DecidableEq R]
    (m : SmallM2M L R) (left : L) (right : R) : Bool :=
  m.pairs.any (fun p => decide (p.1 = left) && decide (p.2 = right))

/-- SmallM2M::iter, as the sequence of pairs the iterator yields. -/
def SmallM2M.iter {L R : Type} (m : SmallM2M L R) : List (L × R) :=
  m.pairs

/-- SmallM2M::as_slice. -/
def SmallM2M.as_slice {L R : Type} (m : SmallM2M L R) : List (L × R) :=
  m.pairs

end Smallvec

namespace Lib

/-- The M2M container of src/src/lib.rs: a plain vector wrapper whose
insert appends without re-sorting (insertion-order policy). -/
structure M2M (L R : Type) where
  pairs : List (L × R)

/-- M2M::new / Default. -/
def M2M.new {L R : Type} : M2M L R :=
  ⟨[]⟩

/-- FromIterator for M2M (src/src/lib.rs lines 16-28): collect, sort,
dedup adjacent duplicates. -/
def M2M.from_iter {L R : Type} [LinearOrder L] [LinearOrder R]
    (v : List (L × R)) : M2M L R :=
  ⟨dedupAdj (List.mergeSort v pairLE)⟩

/-- M2M::insert (src/src/lib.rs lines 76-89): if the pair is present
return false, else push it at the end and return true.  No re-sort. -/
def M2M.insert {L R : Type} [DecidableEq L] [DecidableEq R]
    (m : M2M L R) (left : L) (right : R) : Bool × M2M L R :=
  let value := (left, right)
  if value ∈ m.pairs then (false, m)
  else (true, ⟨m.pairs ++ [value]⟩)

/-- M2M::clear. -/
def M2M.clear {L R : Type} (_ : M2M L R) : M2M L R :=
  ⟨[]⟩

/-- M2M::is_empty. -/
def M2M.is_empty {L R : Type} (m : M2M L R) : Bool :=
  m.pairs.isEmpty

/-- M2M::len. -/
def M2M.len {L R : Type} (m : M2M L R) : Nat :=
  m.pairs.length

/-- M2M::remove (src/src/lib.rs lines 157-178). -/
def M2M.remove {L R : Type} [DecidableEq L] (m : M2M L R) (left : L) :
    Option (List R) × M2M L R :=
  let res := removeAux left m.pairs
  (if res.1.isEmpty then none else some res.1, ⟨res.2⟩)

/-- M2M::contains. -/
def M2M.contains {L R : Type} [DecidableEq L] [DecidableEq R]
    (m : M2M L R) (left : L) (right : R) : Bool :=
  m.pairs.any (fun p => decide (p.1 = left) && decide (p.2 = right))

/-- M2M::get_rights (src/src/lib.rs lines 276-292). -/
def M2M.get_rights {L R : Type} [DecidableEq L] (m : M2M L R) (left : L) :
    Option (List R) :=
  let rights := (m.pairs.filter (fun p => decide (p.1 = left))).map Prod.snd
  if rights.isEmpty then none else some rights

/-- M2M::get_lefts (src/src/lib.rs lines 306-322). -/
def M2M.get_lefts {L R : Type} [DecidableEq R] (m : M2M L R) (right : R) :
    Option (List L) :=
  let lefts := (m.pairs.filter (fun p => decide (p.2 = right))).map Prod.fst
  if lefts.isEmpty then none else some lefts

/-- M2M::contains_left (src/src/lib.rs lines 336-341). -/
def M2M.contains_left {L R : Type} [DecidableEq L] (m : M2M L R) (left : L) :
    Bool :=
  m.pairs.any (fun p => decide (p.1 = left))

/-- M2M::contains_right (src/src/lib.rs lines 355-360). -/
def M2M.contains_right {L R : Type} [DecidableEq R] (m : M2M L R) (right : R) :
    Bool :=
  m.pairs.any (fun p => decide (p.2 = right))

end Lib

/-- Container states of the stdvec M2M reachable by construction (new or
bulk from) followed by any sequence of single-pair inserts. -/
inductive InsertReachable {L R : Type} [LinearOrder L] [LinearOrder R] :
    Stdvec.M2M L R → Prop
  | new : InsertReachable Stdvec.M2M.new
  | ofIter (v : List (L × R)) : InsertReachable (Stdvec.M2M.from_iter v)
  | step (m : Stdvec.M2M L R) (l : L) (r : R) :
      InsertReachable m → InsertReachable (Stdvec.M2M.insert m l r).2

/-- Container states of the small-buffer SmallM2M reachable by
construction followed by any sequence of single-pair inserts. -/
inductive SmallInsertReachable {L R : Type} [LinearOrder L] [LinearOrder R] :
    Smallvec.SmallM2M L R → Prop
  | new : SmallInsertReachable Smallvec.SmallM2M.new
  | ofIter (v : List (L × R)) : SmallInsertReachable (Smallvec.SmallM2M.from_iter v)
  | step (m : Smallvec.SmallM2M L R) (l : L) (r : R) :
      SmallInsertReachable m → SmallInsertReachable (Smallvec.SmallM2M.insert m l r).2

/-- Container states of the stdvec M2M reachable from new or bulk
construction by any sequence of insert, remove, clear, retain and
reject. -/
inductive Reachable {L R : Type} [LinearOrder L] [LinearOrder R] :
    Stdvec.M2M L R → Prop
  | new : Reachable Stdvec.M2M.new
  | ofIter (v : List (L × R)) : Reachable (Stdvec.M2M.from_iter v)
  | insertStep (m : Stdvec.M2M L R) (l : L) (r : R) :
      Reachable m → Reachable (Stdvec.M2M.insert m l r).2
  | removeStep (m : Stdvec.M2M L R) (l : L) :
      Reachable m → Reachable (Stdvec.M2M.remove m l).2
  | clearStep (m : Stdvec.M2M L R) : Reachable m → Reachable (Stdvec.M2M.clear m)
  | retainStep (m : Stdvec.M2M L R) (f : L × R → Bool) :
      Reachable m → Reachable (Stdvec.M2M.retain m f)
  | rejectStep (m : Stdvec.M2M L R) (f : L × R → Bool) :
      Reachable m → Reachable (Stdvec.M2M.reject m f)

/-- One operation of the surface shared by M2M and SmallM2M, tagged with
its arguments. -/
inductive SharedOp (L R : Type) where
  | insertOp (l : L) (r : R) : SharedOp L R
  | lenOp : SharedOp L R
  | isEmptyOp : SharedOp L R
  | clearOp : SharedOp L R
  | containsOp (l : L) (r : R) : SharedOp L R
  | removeOp (l : L) : SharedOp L R
  | iterOp : SharedOp L R
  | asSliceOp : SharedOp L R

/-- The observable return value of one operation of the shared surface. -/
inductive SharedObs (L R : Type) where
  | obsBool (b : Bool) : SharedObs L R
  | obsNat (n : Nat) : SharedObs L R
  | obsOptRights (o : Option (List R)) : SharedObs L R
  | obsUnit : SharedObs L R
  | obsPairs (ps : List (L × R)) : SharedObs L R

/-- Run one shared-surface operation on the heap-backed M2M, returning the
successor state and the observable result. -/
def stepM2M {L R : Type} [LinearOrder L] [LinearOrder R]
    (m : Stdvec.M2M L R) : SharedOp L R → Stdvec.M2M L R × SharedObs L R
  | .insertOp l r =>
    let res := Stdvec.M2M.insert m l r
    (res.2, .obsBool res.1)
  | .lenOp => (m, .obsNat (Stdvec.M2M.len m))
  | .isEmptyOp => (m, .obsBool (Stdvec.M2M.is_empty m))
  | .clearOp => (Stdvec.M2M.clear m, .obsUnit)
  | .containsOp l r => (m, .obsBool (Stdvec.M2M.contains m l r))
  | .removeOp l =>
    let res := Stdvec.M2M.remove m l
    (res.2, .obsOptRights res.1)
  | .iterOp => (m, .obsPairs (Stdvec.M2M.iter m))
  | .asSliceOp => (m, .obsPairs (Stdvec.M2M.as_slice m))

/-- Run one shared-surface operation on the small-buffer SmallM2M. -/
def stepSmall {L R : Type} [LinearOrder L] [LinearOrder R]
    (m : Smallvec.SmallM2M L R) : SharedOp L R → Smallvec.SmallM2M L R × SharedObs L R
  | .insertOp l r =>
    let res := Smallvec.SmallM2M.insert m l r
    (res.2, .obsBool res.1)
  | .lenOp => (m, .obsNat (Smallvec.SmallM2M.len m))
  | .isEmptyOp => (m, .obsBool (Smallvec.SmallM2M.is_empty m))
  | .clearOp => (Smallvec.SmallM2M.clear m, .obsUnit)
  | .containsOp l r => (m, .obsBool (Smallvec.SmallM2M.contains m l r))
  | .removeOp l =>
    let res := Smallvec.SmallM2M.remove m l
    (res.2, .obsOptRights res.1)
  | .iterOp => (m, .obsPairs (Smallvec.SmallM2M.iter m))
  | .asSliceOp => (m, .obsPairs (Smallvec.SmallM2M.as_slice m))

/-- Run a sequence of shared-surface operations on the heap-backed M2M and
collect the observable results. -/
def runM2M {L R : Type} [LinearOrder L] [LinearOrder R] (m : Stdvec.M2M L R) :
    List (SharedOp L R) → List (SharedObs L R)
  | [] => []
  | op :: ops =>
    let res := stepM2M m op
    res.2 :: runM2M res.1 ops

/-- Run a sequence of shared-surface operations on the SmallM2M. -/
def runSmall {L R : Type} [LinearOrder L] [LinearOrder R]
    (m : Smallvec.SmallM2M L R) :
    List (SharedOp L R) → List (SharedObs L R)
  | [] => []
  | op :: ops =>
    let res := stepSmall m op
    res.2 :: runSmall res.1 ops

theorem pairLE_trans {L R : Type} [LinearOrder L] [LinearOrder R] (a b c : L × R) :
    pairLE a b → pairLE b c → pairLE a c := by
  simp only [pairLE, Bool.or_eq_true, Bool.and_eq_true, decide_eq_true_eq]
  rintro (h1 | ⟨e1, h1⟩) (h2 | ⟨e2, h2⟩)
  · exact Or.inl (lt_trans h1 h2)
  · exact Or.inl (lt_of_lt_of_eq h1 e2)
  · exact Or.inl (lt_of_eq_of_lt e1 h2)
  · exact Or.inr ⟨e1.trans e2, le_trans h1 h2⟩

theorem pairLE_total {L R : Type} [LinearOrder L] [LinearOrder R] (a b : L × R) :
    pairLE a b || pairLE b a := by
  simp only [pairLE, Bool.or_eq_true, Bool.and_eq_true, decide_eq_true_eq]
  rcases lt_trichotomy a.1 b.1 with h | h | h
  · exact Or.inl (Or.inl h)
  · rcases le_total a.2 b.2 with h2 | h2
    · exact Or.inl (Or.inr ⟨h, h2⟩)
    · exact Or.inr (Or.inr ⟨h.symm, h2⟩)
  · exact Or.inr (Or.inl h)

theorem pairLE_antisymm {L R : Type} [LinearOrder L] [LinearOrder R] (a b : L × R) :
    pairLE a b → pairLE b a → a = b := by
  simp only [pairLE, Bool.or_eq_true, Bool.and_eq_true, decide_eq_true_eq]
  rintro (h1 | ⟨e1, h1⟩) (h2 | ⟨e2, h2⟩)
  · exact absurd (lt_trans h1 h2) (lt_irrefl _)
  · exact absurd (lt_of_lt_of_eq h1 e2) (lt_irrefl _)
  · exact absurd (lt_of_eq_of_lt e1 h2) (lt_irrefl _)
  · exact Prod.ext e1 (le_antisymm h1 h2)

theorem pairLT_of_le_ne {L R : Type} [LinearOrder L] [LinearOrder R] (a b : L × R)
    (h : pairLE a b = true) (hne : a ≠ b) : pairLT a b := by
  simp only [pairLE, Bool.or_eq_true, Bool.and_eq_true, decide_eq_true_eq] at h
  rcases h with h | ⟨e, h⟩
  · exact Or.inl h
  · rcases lt_or_eq_of_le h with h2 | h2
    · exact Or.inr ⟨e, h2⟩
    · exact absurd (Prod.ext e h2) hne

theorem pairLT_ne {L R : Type} [LinearOrder L] [LinearOrder R] {a b : L × R}
    (h : pairLT a b) : a ≠ b := by
  rintro rfl
  rcases h with h | ⟨_, h⟩ <;> exact lt_irrefl _ h

theorem dedupAdj_sublist {α : Type} [DecidableEq α] :
    ∀ l : List α, List.Sublist (dedupAdj l) l
  | [] => List.Sublist.refl _
  | [_] => List.Sublist.refl _
  | a :: b :: rest => by
    simp only [dedupAdj]
    by_cases h : a = b
    · simp only [if_pos h]
      exact (dedupAdj_sublist (b :: rest)).cons a
    · simp only [if_neg h]
      exact (dedupAdj_sublist (b :: rest)).cons₂ a

theorem mem_dedupAdj {α : Type} [DecidableEq α] (x : α) :
    ∀ l : List α, x ∈ dedupAdj l ↔ x ∈ l
  | [] => Iff.rfl
  | [a] => Iff.rfl
  | a :: b :: rest => by
    simp only [dedupAdj]
    by_cases h : a = b
    · rw [if_pos h, mem_dedupAdj x (b :: rest)]
      subst h
      simp only [List.mem_cons]
      tauto
    · rw [if_neg h]
      simp only [List.mem_cons, mem_dedupAdj x (b :: rest)]

/-- On a weakly sorted list, adjacent deduplication yields a strictly
sorted list (hence, in particular, one without duplicates). -/
theorem pairwise_lt_dedupAdj {L R : Type} [LinearOrder L] [LinearOrder R] :
    ∀ l : List (L × R), l.Pairwise (fun a b => pairLE a b = true) →
      (dedupAdj l).Pairwise pairLT
  | [], _ => List.Pairwise.nil
  | [a], _ => by simp [dedupAdj]
  | a :: b :: rest, hp => by
    rcases List.pairwise_cons.mp hp with ⟨ha, hp1⟩
    simp only [dedupAdj]
    by_cases h : a = b
    · rw [if_pos h]
      exact pairwise_lt_dedupAdj (b :: rest) hp1
    · rw [if_neg h]
      refine List.pairwise_cons.mpr ⟨?_, pairwise_lt_dedupAdj (b :: rest) hp1⟩
      intro y hy
      have hyb : y ∈ b :: rest := (dedupAdj_sublist (b :: rest)).subset hy
      refine pairLT_of_le_ne a y (ha y hyb) ?_
      rintro rfl
      rcases List.mem_cons.mp hyb with heq | hyr
      · exact h heq
      · exact h (pairLE_antisymm a b (ha b (List.mem_cons_self b rest))
          ((List.pairwise_cons.mp hp1).1 a hyr))

/-- A weakly sorted list without duplicates is strictly sorted. -/
theorem pairwise_lt_of_le_nodup {L R : Type} [LinearOrder L] [LinearOrder R]
    {l : List (L × R)} (hs : l.Pairwise (fun a b => pairLE a b = true))
    (hn : l.Nodup) : l.Pairwise pairLT :=
  (hs.and hn).imp (fun h => pairLT_of_le_ne _ _ h.1 h.2)

/-- A strictly sorted list has no duplicates. -/
theorem nodup_of_pairwise_lt {L R : Type} [LinearOrder L] [LinearOrder R]
    {l : List (L × R)} (hs : l.Pairwise pairLT) : l.Nodup :=
  hs.imp (fun h => pairLT_ne h)

theorem pairLE_refl {L R : Type} [LinearOrder L] [LinearOrder R] (a : L × R) :
    pairLE a a := by
  simp [pairLE]

theorem pairwise_le_mergeSort {L R : Type} [LinearOrder L] [LinearOrder R]
    (l : List (L × R)) :
    (List.mergeSort l pairLE).Pairwise (fun a b => pairLE a b = true) :=
  List.sorted_mergeSort pairLE_trans pairLE_total l

/-- Sorting and then deduplicating adjacent duplicates yields a strictly
sorted list. -/
theorem pairwise_lt_sortDedup {L R : Type} [LinearOrder L] [LinearOrder R]
    (l : List (L × R)) :
    (dedupAdj (List.mergeSort l pairLE)).Pairwise pairLT :=
  pairwise_lt_dedupAdj _ (pairwise_le_mergeSort l)

/-- Pushing a fresh pair and re-sorting preserves strict sortedness. -/
theorem pairwise_lt_push_sort {L R : Type} [LinearOrder L] [LinearOrder R]
    {l : List (L × R)} {v : L × R} (hs : l.Pairwise pairLT) (hv : v ∉ l) :
    (List.mergeSort (l ++ [v]) pairLE).Pairwise pairLT := by
  have hnd : (l ++ [v]).Nodup := by
    simp only [List.nodup_append, List.nodup_cons, List.not_mem_nil,
      not_false_iff, List.nodup_nil, and_true, List.disjoint_singleton]
    exact ⟨nodup_of_pairwise_lt hs, trivial, hv⟩
  exact pairwise_lt_of_le_nodup (pairwise_le_mergeSort _)
    ((List.mergeSort_perm (l ++ [v]) pairLE).symm.nodup hnd)

theorem dedupAdj_eq_nil_iff {α : Type} [DecidableEq α] :
    ∀ l : List α, dedupAdj l = [] ↔ l = []
  | [] => Iff.rfl
  | [a] => by simp [dedupAdj]
  | a :: b :: rest => by
    simp only [dedupAdj]
    by_cases h : a = b
    · rw [if_pos h, dedupAdj_eq_nil_iff (b :: rest)]
      simp
    · rw [if_neg h]
      simp

/-- The removal loop extracts exactly the matching rights, in order, and
keeps exactly the non-matching pairs, in order. -/
theorem removeAux_eq {L R : Type} [DecidableEq L] (left : L) :
    ∀ l : List (L × R),
      removeAux left l =
        ((l.filter (fun p => decide (p.1 = left))).map Prod.snd,
          l.filter (fun p => !decide (p.1 = left)))
  | [] => rfl
  | p :: rest => by
    simp only [removeAux, removeAux_eq left rest, List.filter_cons]
    by_cases h : p.1 = left
    · simp [h]
    · simp [h]

/-- Insert of a pair that is already present returns false and leaves the
container untouched (stdvec variant). -/
theorem stdvec_insert_mem {L R : Type} [LinearOrder L] [LinearOrder R]
    (m : Stdvec.M2M L R) (l : L) (r : R) (h : (l, r) ∈ m.pairs) :
    Stdvec.M2M.insert m l r = (false, m) := by
  simp [Stdvec.M2M.insert, h]

/-- Insert of a pair that is already present returns false and leaves the
container untouched (lib.rs variant). -/
theorem lib_insert_mem {L R : Type} [DecidableEq L] [DecidableEq R]
    (m : Lib.M2M L R) (l : L) (r : R) (h : (l, r) ∈ m.pairs) :
    Lib.M2M.insert m l r = (false, m) := by
  simp [Lib.M2M.insert, h]

/-- C1: for every container and pair, insert refuses a pair that is
already present, leaving the container unchanged and returning false, and
otherwise adds the pair (the new content is the old content plus the pair)
and returns true; an immediately repeated insert returns false and leaves
the container, hence its length, unchanged.  Proved for the sorted stdvec
variant and for the append-only lib.rs variant cited by the claim. -/
theorem insert_semantics {L R : Type} [LinearOrder L] [LinearOrder R]
    (m : Stdvec.M2M L R) (n : Lib.M2M L R) (l : L) (r : R) :
    (((l, r) ∈ m.pairs → Stdvec.M2M.insert m l r = (false, m)) ∧
      ((l, r) ∉ m.pairs → (Stdvec.M2M.insert m l r).1 = true ∧
        ((Stdvec.M2M.insert m l r).2.pairs).Perm ((l, r) :: m.pairs)) ∧
      Stdvec.M2M.insert (Stdvec.M2M.insert m l r).2 l r =
        (false, (Stdvec.M2M.insert m l r).2)) ∧
    (((l, r) ∈ n.pairs → Lib.M2M.insert n l r = (false, n)) ∧
      ((l, r) ∉ n.pairs → (Lib.M2M.insert n l r).1 = true ∧
        (Lib.M2M.insert n l r).2.pairs = n.pairs ++ [(l, r)]) ∧
      Lib.M2M.insert (Lib.M2M.insert n l r).2 l r =
        (false, (Lib.M2M.insert n l r).2)) := by
  refine ⟨⟨stdvec_insert_mem m l r, ?_, ?_⟩, lib_insert_mem n l r, ?_, ?_⟩
  · intro h
    refine ⟨by simp [Stdvec.M2M.insert, h], ?_⟩
    simp only [Stdvec.M2M.insert, if_neg h]
    exact (List.mergeSort_perm _ _).trans (List.perm_append_singleton _ _)
  · refine stdvec_insert_mem _ l r ?_
    by_cases h : (l, r) ∈ m.pairs
    · rw [stdvec_insert_mem m l r h]
      exact h
    · simp [Stdvec.M2M.insert, if_neg h]
  · intro h
    exact ⟨by simp [Lib.M2M.insert, h], by simp [Lib.M2M.insert, h]⟩
  · refine lib_insert_mem _ l r ?_
    by_cases h : (l, r) ∈ n.pairs
    · rw [lib_insert_mem n l r h]
      exact h
    · simp [Lib.M2M.insert, if_neg h]

/-- Witness for C1 at a concrete input: inserting (1, 2) into the empty
container returns true, and repeating it returns false with the container
unchanged. -/
theorem insert_semantics_witness :
    (Stdvec.M2M.insert (Stdvec.M2M.new : Stdvec.M2M ℕ ℕ) 1 2).1 = true ∧
    Stdvec.M2M.insert (Stdvec.M2M.insert (Stdvec.M2M.new : Stdvec.M2M ℕ ℕ) 1 2).2 1 2 =
      (false, (Stdvec.M2M.insert (Stdvec.M2M.new : Stdvec.M2M ℕ ℕ) 1 2).2) ∧
    (Lib.M2M.insert (Lib.M2M.new : Lib.M2M ℕ ℕ) 1 2).2.pairs = [(1, 2)] := by
  have h := insert_semantics (Stdvec.M2M.new : Stdvec.M2M ℕ ℕ)
    (Lib.M2M.new : Lib.M2M ℕ ℕ) 1 2
  refine ⟨(h.1.2.1 (by simp [Stdvec.M2M.new])).1, h.1.2.2, ?_⟩
  have h2 := (h.2.2.1 (by simp [Lib.M2M.new])).2
  simpa [Lib.M2M.new] using h2

/-- C9: reject keeps exactly the pairs on which the predicate is false, in
their original order, and is the same container as retain of the negated
predicate. -/
theorem reject_eq_retain_not {L R : Type} (m : Stdvec.M2M L R)
    (f : L × R → Bool) :
    Stdvec.M2M.reject m f = Stdvec.M2M.retain m (fun p => !f p) ∧
    (Stdvec.M2M.reject m f).pairs = m.pairs.filter (fun p => !f p) :=
  ⟨rfl, rfl⟩

/-- C10: get_rights returns Some exactly when contains_left holds, and
get_lefts returns Some exactly when contains_right holds. -/
theorem get_some_iff_contains {L R : Type} [DecidableEq L] [DecidableEq R]
    (m : Stdvec.M2M L R) (l : L) (r : R) :
    (Stdvec.M2M.get_rights m l).isSome = Stdvec.M2M.contains_left m l ∧
    (Stdvec.M2M.get_lefts m r).isSome = Stdvec.M2M.contains_right m r := by
  constructor
  · simp only [Stdvec.M2M.get_rights, Stdvec.M2M.contains_left]
    by_cases h : ((m.pairs.filter (fun p => decide (p.1 = l))).map Prod.snd).isEmpty
    · rw [if_pos h]
      simp only [List.isEmpty_iff, List.map_eq_nil_iff, List.filter_eq_nil_iff,
        decide_eq_true_eq] at h
      simp only [Option.isSome_none]
      symm
      simp only [List.any_eq_false, decide_eq_true_eq]
      exact h
    · rw [if_neg h]
      simp only [List.isEmpty_iff, List.map_eq_nil_iff, List.filter_eq_nil_iff,
        decide_eq_true_eq] at h
      push_neg at h
      rcases h with ⟨p, hp, hpl⟩
      simp only [Option.isSome_some]
      symm
      simp only [List.any_eq_true, decide_eq_true_eq]
      exact ⟨p, hp, hpl⟩
  · simp only [Stdvec.M2M.get_lefts, Stdvec.M2M.contains_right]
    by_cases h : ((m.pairs.filter (fun p => decide (p.2 = r))).map Prod.fst).isEmpty
    · rw [if_pos h]
      simp only [List.isEmpty_iff, List.map_eq_nil_iff, List.filter_eq_nil_iff,
        decide_eq_true_eq] at h
      simp only [Option.isSome_none]
      symm
      simp only [List.any_eq_false, decide_eq_true_eq]
      exact h
    · rw [if_neg h]
      simp only [List.isEmpty_iff, List.map_eq_nil_iff, List.filter_eq_nil_iff,
        decide_eq_true_eq] at h
      push_neg at h
      rcases h with ⟨p, hp, hpr⟩
      simp only [Option.isSome_some]
      symm
      simp only [List.any_eq_true, decide_eq_true_eq]
      exact ⟨p, hp, hpr⟩

theorem ite_isEmpty_eq_none {α β : Type} (v : List α) (w : β) :
    ((if v.isEmpty then (none : Option β) else some w) = none) ↔ v = [] := by
  by_cases h : v.isEmpty = true
  · rw [if_pos h]
    simp [List.isEmpty_iff.mp h]
  · rw [if_neg h]
    simp only [List.isEmpty_iff] at h
    simp [h]

theorem ite_isEmpty_eq_some {α β : Type} {v : List α} {w s : β}
    (h : (if v.isEmpty then (none : Option β) else some w) = some s) :
    s = w ∧ v ≠ [] := by
  by_cases hv : v.isEmpty = true
  · rw [if_pos hv] at h
    exact absurd h (by simp)
  · rw [if_neg hv] at h
    refine ⟨(Option.some.inj h).symm, ?_⟩
    simpa [List.isEmpty_iff] using hv

theorem mergeSort_eq_nil_iff {α : Type} {l : List α} {le : α → α → Bool} :
    List.mergeSort l le = [] ↔ l = [] := by
  constructor
  · intro h
    have h2 := congrArg List.length h
    simpa using h2
  · rintro rfl
    simp

/-- C4: remove deletes exactly the pairs whose left component equals the
argument, keeping the others in their original relative order; it returns
the right components of the deleted pairs in their pre-removal order, and
None exactly when no pair matched, in particular on the empty
container. -/
theorem remove_spec {L R : Type} [DecidableEq L] (m : Stdvec.M2M L R) (l : L) :
    ((Stdvec.M2M.remove m l).2.pairs = m.pairs.filter (fun p => !decide (p.1 = l))) ∧
    ((∃ p ∈ m.pairs, p.1 = l) →
      (Stdvec.M2M.remove m l).1 =
        some ((m.pairs.filter (fun p => decide (p.1 = l))).map Prod.snd)) ∧
    ((∀ p ∈ m.pairs, p.1 ≠ l) → (Stdvec.M2M.remove m l).1 = none) ∧
    Stdvec.M2M.remove (Stdvec.M2M.new : Stdvec.M2M L R) l = (none, Stdvec.M2M.new) := by
  refine ⟨?_, ?_, ?_, rfl⟩
  · simp [Stdvec.M2M.remove, removeAux_eq]
  · rintro ⟨p, hp, hpl⟩
    have hne : ¬((m.pairs.filter (fun p => decide (p.1 = l))).map Prod.snd).isEmpty = true := by
      simp only [List.isEmpty_iff, List.map_eq_nil_iff, List.filter_eq_nil_iff,
        decide_eq_true_eq]
      push_neg
      exact ⟨p, hp, hpl⟩
    simp only [Stdvec.M2M.remove, removeAux_eq, if_neg hne]
  · intro h
    have he : ((m.pairs.filter (fun p => decide (p.1 = l))).map Prod.snd).isEmpty = true := by
      simp only [List.isEmpty_iff, List.map_eq_nil_iff, List.filter_eq_nil_iff,
        decide_eq_true_eq]
      exact h
    simp only [Stdvec.M2M.remove, removeAux_eq, if_pos he]

/-- Witness for C4: removing left 1 from [(1, 10), (2, 20), (1, 30)]
yields rights [10, 30] and keeps exactly [(2, 20)]. -/
theorem remove_spec_witness :
    (Stdvec.M2M.remove (⟨[(1, 10), (2, 20), (1, 30)]⟩ : Stdvec.M2M ℕ ℕ) 1).1 =
      some [10, 30] ∧
    (Stdvec.M2M.remove (⟨[(1, 10), (2, 20), (1, 30)]⟩ : Stdvec.M2M ℕ ℕ) 1).2.pairs =
      [(2, 20)] := by
  have h := remove_spec (⟨[(1, 10), (2, 20), (1, 30)]⟩ : Stdvec.M2M ℕ ℕ) 1
  constructor
  · rw [h.2.1 ⟨(1, 10), by simp, rfl⟩]
    simp
  · rw [h.1]
    simp

/-- C7: the operations returning an Option never yield Some of an empty
sequence: remove, get_rights and get_lefts return None exactly when no
pair matches, lefts, rights, into_lefts and into_rights return None
exactly when the container is empty, and every Some payload is
non-empty. -/
theorem absent_sentinel {L R : Type} [LinearOrder L] [LinearOrder R]
    (m : Stdvec.M2M L R) (l : L) (r : R) :
    ((Stdvec.M2M.remove m l).1 = none ↔ ∀ p ∈ m.pairs, p.1 ≠ l) ∧
    (∀ s, (Stdvec.M2M.remove m l).1 = some s → s ≠ []) ∧
    (Stdvec.M2M.get_rights m l = none ↔ ∀ p ∈ m.pairs, p.1 ≠ l) ∧
    (∀ s, Stdvec.M2M.get_rights m l = some s → s ≠ []) ∧
    (Stdvec.M2M.get_lefts m r = none ↔ ∀ p ∈ m.pairs, p.2 ≠ r) ∧
    (∀ s, Stdvec.M2M.get_lefts m r = some s → s ≠ []) ∧
    (Stdvec.M2M.lefts m = none ↔ m.pairs = []) ∧
    (∀ s, Stdvec.M2M.lefts m = some s → s ≠ []) ∧
    (Stdvec.M2M.rights m = none ↔ m.pairs = []) ∧
    (∀ s, Stdvec.M2M.rights m = some s → s ≠ []) ∧
    (Stdvec.M2M.into_lefts m = none ↔ m.pairs = []) ∧
    (∀ s, Stdvec.M2M.into_lefts m = some s → s ≠ []) ∧
    (Stdvec.M2M.into_rights m = none ↔ m.pairs = []) ∧
    (∀ s, Stdvec.M2M.into_rights m = some s → s ≠ []) := by
  refine ⟨?_, ?_, ?_, ?_, ?_, ?_, ?_, ?_, ?_, ?_, ?_, ?_, ?_, ?_⟩
  · simp only [Stdvec.M2M.remove, removeAux_eq]
    rw [ite_isEmpty_eq_none]
    simp [decide_eq_true_eq]
  · intro s hs
    simp only [Stdvec.M2M.remove, removeAux_eq] at hs
    rcases ite_isEmpty_eq_some hs with ⟨rfl, hv⟩
    exact hv
  · simp only [Stdvec.M2M.get_rights]
    rw [ite_isEmpty_eq_none]
    simp [decide_eq_true_eq]
  · intro s hs
    simp only [Stdvec.M2M.get_rights] at hs
    rcases ite_isEmpty_eq_some hs with ⟨rfl, hv⟩
    exact hv
  · simp only [Stdvec.M2M.get_lefts]
    rw [ite_isEmpty_eq_none]
    simp [decide_eq_true_eq]
  · intro s hs
    simp only [Stdvec.M2M.get_lefts] at hs
    rcases ite_isEmpty_eq_some hs with ⟨rfl, hv⟩
    exact hv
  · simp only [Stdvec.M2M.lefts]
    rw [ite_isEmpty_eq_none]
    simp
  · intro s hs
    simp only [Stdvec.M2M.lefts] at hs
    rcases ite_isEmpty_eq_some hs with ⟨rfl, hv⟩
    rw [Ne, dedupAdj_eq_nil_iff, mergeSort_eq_nil_iff]
    simpa using hv
  · simp only [Stdvec.M2M.rights]
    rw [ite_isEmpty_eq_none]
    simp
  · intro s hs
    simp only [Stdvec.M2M.rights] at hs
    rcases ite_isEmpty_eq_some hs with ⟨rfl, hv⟩
    rw [Ne, dedupAdj_eq_nil_iff, mergeSort_eq_nil_iff]
    simpa using hv
  · simp only [Stdvec.M2M.into_lefts]
    rw [ite_isEmpty_eq_none]
    simp
  · intro s hs
    simp only [Stdvec.M2M.into_lefts] at hs
    rcases ite_isEmpty_eq_some hs with ⟨rfl, hv⟩
    rw [Ne, dedupAdj_eq_nil_iff, mergeSort_eq_nil_iff]
    simpa using hv
  · simp only [Stdvec.M2M.into_rights]
    rw [ite_isEmpty_eq_none]
    simp
  · intro s hs
    simp only [Stdvec.M2M.into_rights] at hs
    rcases ite_isEmpty_eq_some hs with ⟨rfl, hv⟩
    rw [Ne, dedupAdj_eq_nil_iff, mergeSort_eq_nil_iff]
    simpa using hv

/-- Witness for C7: on the container [(1, 10)], remove of left 2 returns
None, get_rights of left 1 never returns Some of an empty list. -/
theorem absent_sentinel_witness :
    (Stdvec.M2M.remove (⟨[(1, 10)]⟩ : Stdvec.M2M ℕ ℕ) 2).1 = none ∧
    ∀ s, Stdvec.M2M.get_rights (⟨[(1, 10)]⟩ : Stdvec.M2M ℕ ℕ) 1 = some s → s ≠ [] := by
  have h := absent_sentinel (⟨[(1, 10)]⟩ : Stdvec.M2M ℕ ℕ) 2 5
  have h2 := absent_sentinel (⟨[(1, 10)]⟩ : Stdvec.M2M ℕ ℕ) 1 5
  exact ⟨h.1.mpr (by decide), h2.2.2.2.1⟩

/-- C3: flip of a duplicate-free container holds exactly the input pairs
with components swapped, in strictly ascending order of the swapped
comparison, hence without duplicate pairs.  The embedding of flip is a
pure function of the container (the Rust method takes a shared borrow and
only clones), so the original container is unchanged. -/
theorem flip_spec {L R : Type} [LinearOrder L] [LinearOrder R]
    (m : Stdvec.M2M L R) (h : m.pairs.Nodup) :
    ((Stdvec.M2M.flip m).pairs).Perm (m.pairs.map (fun p => (p.2, p.1))) ∧
    ((Stdvec.M2M.flip m).pairs).Chain' pairLT ∧
    ((Stdvec.M2M.flip m).pairs).Nodup := by
  have hperm : ((Stdvec.M2M.flip m).pairs).Perm (m.pairs.map (fun p => (p.2, p.1))) :=
    List.mergeSort_perm _ _
  have hinj : Function.Injective (fun p : L × R => (p.2, p.1)) := by
    rintro ⟨a1, a2⟩ ⟨b1, b2⟩ hab
    simp only [Prod.mk.injEq] at hab ⊢
    exact ⟨hab.2, hab.1⟩
  have hnd : ((Stdvec.M2M.flip m).pairs).Nodup :=
    hperm.symm.nodup (h.map hinj)
  exact ⟨hperm, (pairwise_lt_of_le_nodup (pairwise_le_mergeSort _) hnd).chain', hnd⟩

/-- Witness for C3 on the container [(1, 2), (3, 4)]. -/
theorem flip_spec_witness :
    ((Stdvec.M2M.flip (⟨[(1, 2), (3, 4)]⟩ : Stdvec.M2M ℕ ℕ)).pairs).Perm
      [(2, 1), (4, 3)] ∧
    ((Stdvec.M2M.flip (⟨[(1, 2), (3, 4)]⟩ : Stdvec.M2M ℕ ℕ)).pairs).Nodup := by
  have h := flip_spec (⟨[(1, 2), (3, 4)]⟩ : Stdvec.M2M ℕ ℕ) (by decide)
  exact ⟨by simpa using h.1, h.2.2⟩

/-- C6: bulk construction sorts the input under the pair order and removes
adjacent duplicates: the result is strictly ascending, a pair is in the
result exactly when it is in the input (one representative per duplicate
class), the empty input yields the empty container, a doubled pair
collapses to length 1, and the small-buffer construction yields the
identical pair sequence.  The function is total, so construction never
fails. -/
theorem from_iter_spec {L R : Type} [LinearOrder L] [LinearOrder R]
    (v : List (L × R)) (a : L) (b : R) :
    ((Stdvec.M2M.from_iter v).pairs.Chain' pairLT) ∧
    (∀ p : L × R, p ∈ (Stdvec.M2M.from_iter v).pairs ↔ p ∈ v) ∧
    ((Stdvec.M2M.from_iter ([] : List (L × R))).pairs = []) ∧
    (Stdvec.M2M.len (Stdvec.M2M.from_iter [(a, b), (a, b)]) = 1) ∧
    ((Smallvec.SmallM2M.from_iter v).pairs = (Stdvec.M2M.from_iter v).pairs) := by
  refine ⟨(pairwise_lt_sortDedup v).chain', ?_, ?_, ?_, rfl⟩
  · intro p
    rw [Stdvec.M2M.from_iter, mem_dedupAdj, List.mem_mergeSort]
  · simp [Stdvec.M2M.from_iter, dedupAdj]
  · have hs : List.mergeSort [(a, b), (a, b)] pairLE = [(a, b), (a, b)] :=
      List.mergeSort_of_sorted (by simp [pairLE_refl])
    simp [Stdvec.M2M.len, Stdvec.M2M.from_iter, hs, dedupAdj]

/-- Witness for C6 with the concrete input [(2, 7), (1, 5), (2, 7)]. -/
theorem from_iter_spec_witness :
    ((Stdvec.M2M.from_iter [(2, 7), (1, 5), (2, 7)] : Stdvec.M2M ℕ ℕ).pairs.Chain' pairLT) ∧
    ((2, 7) ∈ (Stdvec.M2M.from_iter [(2, 7), (1, 5), (2, 7)] : Stdvec.M2M ℕ ℕ).pairs) ∧
    (Stdvec.M2M.len (Stdvec.M2M.from_iter [(3, 4), (3, 4)] : Stdvec.M2M ℕ ℕ) = 1) := by
  have h := from_iter_spec ([(2, 7), (1, 5), (2, 7)] : List (ℕ × ℕ)) 3 4
  exact ⟨h.1, (h.2.1 (2, 7)).mpr (by simp), h.2.2.2.1⟩

/-- A single stdvec insert preserves strict sortedness of the pairs. -/
theorem stdvec_insert_pairwise_lt {L R : Type} [LinearOrder L] [LinearOrder R]
    {m : Stdvec.M2M L R} (h : m.pairs.Pairwise pairLT) (l : L) (r : R) :
    ((Stdvec.M2M.insert m l r).2).pairs.Pairwise pairLT := by
  by_cases hm : (l, r) ∈ m.pairs
  · rw [stdvec_insert_mem m l r hm]
    exact h
  · simp only [Stdvec.M2M.insert, if_neg hm]
    exact pairwise_lt_push_sort h hm

/-- A single smallvec insert preserves strict sortedness of the pairs. -/
theorem smallvec_insert_pairwise_lt {L R : Type} [LinearOrder L] [LinearOrder R]
    {m : Smallvec.SmallM2M L R} (h : m.pairs.Pairwise pairLT) (l : L) (r : R) :
    ((Smallvec.SmallM2M.insert m l r).2).pairs.Pairwise pairLT := by
  by_cases hm : (l, r) ∈ m.pairs
  · simp only [Smallvec.SmallM2M.insert, if_pos hm]
    exact h
  · simp only [Smallvec.SmallM2M.insert, if_neg hm]
    exact pairwise_lt_push_sort h hm

theorem insertReachable_pairwise {L R : Type} [LinearOrder L] [LinearOrder R]
    {m : Stdvec.M2M L R} (h : InsertReachable m) : m.pairs.Pairwise pairLT := by
  induction h with
  | new => exact List.Pairwise.nil
  | ofIter v => exact pairwise_lt_sortDedup v
  | step m l r _ ih => exact stdvec_insert_pairwise_lt ih l r

theorem smallInsertReachable_pairwise {L R : Type} [LinearOrder L] [LinearOrder R]
    {m : Smallvec.SmallM2M L R} (h : SmallInsertReachable m) :
    m.pairs.Pairwise pairLT := by
  induction h with
  | new => exact List.Pairwise.nil
  | ofIter v => exact pairwise_lt_sortDedup v
  | step m l r _ ih => exact smallvec_insert_pairwise_lt ih l r

/-- C2: under the sorted-order policy, after every sequence of
construction and single-pair inserts (in particular right after any insert
returns), adjacent pairs are in strictly ascending lexicographic order.
Proved for both concrete container types that adopt the policy, M2M of
stdvec.rs and SmallM2M of smallvec.rs. -/
theorem insert_sorted {L R : Type} [LinearOrder L] [LinearOrder R] :
    (∀ m : Stdvec.M2M L R, InsertReachable m → m.pairs.Chain' pairLT) ∧
    (∀ m : Smallvec.SmallM2M L R, SmallInsertReachable m → m.pairs.Chain' pairLT) :=
  ⟨fun _ h => (insertReachable_pairwise h).chain',
    fun _ h => (smallInsertReachable_pairwise h).chain'⟩

/-- Witness for C2: after inserting (3, 4) then (1, 2) into the empty
container, the pairs are adjacent-wise strictly ascending. -/
theorem insert_sorted_witness :
    ((Stdvec.M2M.insert
        (Stdvec.M2M.insert (Stdvec.M2M.new : Stdvec.M2M ℕ ℕ) 3 4).2 1 2).2).pairs.Chain'
      pairLT :=
  (@insert_sorted ℕ ℕ _ _).1 _
    (InsertReachable.step _ 1 2 (InsertReachable.step _ 3 4 InsertReachable.new))

/-- Every reachable state is strictly sorted (strengthened invariant from
which uniqueness follows). -/
theorem reachable_pairwise {L R : Type} [LinearOrder L] [LinearOrder R]
    {m : Stdvec.M2M L R} (h : Reachable m) : m.pairs.Pairwise pairLT := by
  induction h with
  | new => exact List.Pairwise.nil
  | ofIter v => exact pairwise_lt_sortDedup v
  | insertStep m l r _ ih => exact stdvec_insert_pairwise_lt ih l r
  | removeStep m l _ ih =>
    have he : (Stdvec.M2M.remove m l).2.pairs =
        m.pairs.filter (fun p => !decide (p.1 = l)) := by
      simp [Stdvec.M2M.remove, removeAux_eq]
    rw [he]
    exact ih.filter _
  | clearStep m _ _ => exact List.Pairwise.nil
  | retainStep m f _ ih => exact ih.filter _
  | rejectStep m f _ ih => exact ih.filter _

/-- C5: uniqueness is an invariant of every reachable container state:
starting from new or bulk construction and applying any sequence of
insert, remove, clear, retain and reject, the pair list has no duplicate
entries (equivalently, pairs at distinct indices differ). -/
theorem uniqueness_invariant {L R : Type} [LinearOrder L] [LinearOrder R]
    {m : Stdvec.M2M L R} (h : Reachable m) : m.pairs.Nodup :=
  nodup_of_pairwise_lt (reachable_pairwise h)

/-- Witness for C5: a state built by two inserts and a remove has no
duplicate pairs. -/
theorem uniqueness_invariant_witness :
    ((Stdvec.M2M.remove
        (Stdvec.M2M.insert
          (Stdvec.M2M.insert (Stdvec.M2M.new : Stdvec.M2M ℕ ℕ) 1 2).2 3 4).2 1).2).pairs.Nodup :=
  uniqueness_invariant
    (Reachable.removeStep _ 1
      (Reachable.insertStep _ 3 4 (Reachable.insertStep _ 1 2 Reachable.new)))

/-- On states with the same pairs, a shared operation yields the same
observation and states with the same pairs again. -/
theorem step_agrees {L R : Type} [LinearOrder L] [LinearOrder R]
    (m1 : Stdvec.M2M L R) (m2 : Smallvec.SmallM2M L R) (h : m1.pairs = m2.pairs)
    (op : SharedOp L R) :
    (stepM2M m1 op).1.pairs = (stepSmall m2 op).1.pairs ∧
    (stepM2M m1 op).2 = (stepSmall m2 op).2 := by
  cases op with
  | insertOp l r =>
    by_cases hm : (l, r) ∈ m2.pairs
    · constructor <;>
        simp [stepM2M, stepSmall, Stdvec.M2M.insert, Smallvec.SmallM2M.insert, h, hm]
    · constructor <;>
        simp [stepM2M, stepSmall, Stdvec.M2M.insert, Smallvec.SmallM2M.insert, h, hm]
  | lenOp =>
    exact ⟨h, by simp [stepM2M, stepSmall, Stdvec.M2M.len, Smallvec.SmallM2M.len, h]⟩
  | isEmptyOp =>
    exact ⟨h, by
      simp [stepM2M, stepSmall, Stdvec.M2M.is_empty, Smallvec.SmallM2M.is_empty, h]⟩
  | clearOp =>
    exact ⟨rfl, rfl⟩
  | containsOp l r =>
    exact ⟨h, by
      simp [stepM2M, stepSmall, Stdvec.M2M.contains, Smallvec.SmallM2M.contains, h]⟩
  | removeOp l =>
    constructor <;>
      simp [stepM2M, stepSmall, Stdvec.M2M.remove, Smallvec.SmallM2M.remove, h]
  | iterOp =>
    exact ⟨h, by simp [stepM2M, stepSmall, Stdvec.M2M.iter, Smallvec.SmallM2M.iter, h]⟩
  | asSliceOp =>
    exact ⟨h, by
      simp [stepM2M, stepSmall, Stdvec.M2M.as_slice, Smallvec.SmallM2M.as_slice, h]⟩

/-- Runs from states with the same pairs produce identical observation
sequences. -/
theorem run_agrees {L R : Type} [LinearOrder L] [LinearOrder R] :
    ∀ (ops : List (SharedOp L R)) (m1 : Stdvec.M2M L R) (m2 : Smallvec.SmallM2M L R),
      m1.pairs = m2.pairs → runM2M m1 ops = runSmall m2 ops
  | [], _, _, _ => rfl
  | op :: ops, m1, m2, h => by
    have hs := step_agrees m1 m2 h op
    simp only [runM2M, runSmall]
    rw [hs.2, run_agrees ops _ _ hs.1]

/-- C8: for every sequence of operations of the shared surface (new, from,
insert, len, is_empty, clear, contains, remove, iter, as_slice), the
heap-backed M2M and the small-buffer SmallM2M produce identical observable
results, and the two constructions yield the same pairs in the same
iteration order. -/
theorem m2m_small_equiv {L R : Type} [LinearOrder L] [LinearOrder R]
    (ops : List (SharedOp L R)) (v : List (L × R)) :
    runM2M (Stdvec.M2M.new : Stdvec.M2M L R) ops =
      runSmall (Smallvec.SmallM2M.new : Smallvec.SmallM2M L R) ops ∧
    runM2M (Stdvec.M2M.from_iter v) ops =
      runSmall (Smallvec.SmallM2M.from_iter v) ops ∧
    (Stdvec.M2M.new : Stdvec.M2M L R).pairs =
      (Smallvec.SmallM2M.new : Smallvec.SmallM2M L R).pairs ∧
    (Stdvec.M2M.from_iter v).pairs = (Smallvec.SmallM2M.from_iter v).pairs :=
  ⟨run_agrees ops _ _ rfl, run_agrees ops _ _ rfl, rfl, rfl⟩
